import Mathlib

/-!
Shallow embedding of `internal/service/memorydb/parameter_group.go`
(the MemoryDB parameter-group resource of the terraform-provider-aws fork).

The remote AWS API is abstracted: each remote call's outcome is passed in
explicitly (an `Option AwsErr`, `none` meaning success), and functions that
in Go perform calls are modelled as pure functions of those outcomes.
Go `*string` fields become `Option String` (`aws.StringValue nil = ""`),
Go maps become association lists built by last-writer-wins insertion
(`goMapInsert` / `goMapOfList`), and Go slices become Lean lists.
-/

namespace MemoryDB

/-- `aws.StringValue`: dereference a `*string`, a nil pointer yielding `""`. -/
def awsStringValue : Option String → String
  | none => ""
  | some s => s

/-- A `memorydb.Parameter` as returned by `DescribeParameters`:
`Name` and `Value` are `*string` fields. -/
structure Parameter where
  Name : Option String
  Value : Option String
deriving DecidableEq, Repr

/-- An AWS service error: an error code plus a message
(the two pieces `tfawserr` inspects). -/
structure AwsErr where
  code : String
  message : String
deriving DecidableEq, Repr

/-- Keys (`name` components) of an association list. -/
def keys (l : List (String × String)) : List String :=
  l.map Prod.fst

/-- Go map assignment `m[k] = v`: replace the binding if the key is present,
otherwise append a new binding. -/
def goMapInsert (m : List (String × String)) (k v : String) : List (String × String) :=
  if m.any (fun p => p.1 == k) then
    m.map (fun p => if p.1 == k then (k, v) else p)
  else
    m ++ [(k, v)]

/-- Build a Go map from a list of bindings by iterated assignment
(last writer wins), as the `for _, raw := range ... { m[name] = ... }` loops do. -/
def goMapOfList (l : List (String × String)) : List (String × String) :=
  l.foldl (fun m p => goMapInsert m p.1 p.2) []

/-- Go map read `m[k]`: the value bound to `k`, if any. -/
def goMapLookup (m : List (String × String)) (k : String) : Option String :=
  (m.find? (fun p => p.1 == k)).map Prod.snd

/-- `ParameterChanges` (lines 373-413): build name-keyed maps `om`, `nm` from the
old and new declared sets, then
`remove` = bindings of `om` whose name is absent from `nm`, and
`addOrUpdate` = bindings of `nm` whose name is absent from `om` or whose value
differs from `om`'s. A declared parameter is modelled as its
`(name, value)` string pair (`expandParameterNameValue` wraps exactly these
two strings and the outputs are compared through `aws.StringValue`). -/
def ParameterChanges (o n : List (String × String)) :
    List (String × String) × List (String × String) :=
  let om := goMapOfList o
  let nm := goMapOfList n
  (om.filter (fun p => (goMapLookup nm p.1).isNone),
   nm.filter (fun p =>
     match goMapLookup om p.1 with
     | none => true
     | some ov => p.2 != ov))

/-- The `defaultValueByName` map of `listParameterGroupParameters`
(lines 336-339): family-default values keyed by name. -/
def defaultValueByName (defaults : List Parameter) : List (String × String) :=
  goMapOfList (defaults.map (fun p => (awsStringValue p.Name, awsStringValue p.Value)))

/-- The filtering core of `listParameterGroupParameters` (lines 312-360).
The two `DescribeParameters` calls are abstracted into the `defaults` and
`current` listings; a parameter of the current listing is kept when its
value differs from the family default (absent default read as `""`, Go map
zero value) or its name is a key of the user-defined map. -/
def listParameterGroupParameters (defaults current : List Parameter)
    (userDefined : List (String × String)) : List Parameter :=
  current.filter (fun parameter =>
    let name := awsStringValue parameter.Name
    let currentValue := awsStringValue parameter.Value
    let defaultValue := (goMapLookup (defaultValueByName defaults) name).getD ""
    let isUserDefined := (goMapLookup userDefined name).isSome
    currentValue != defaultValue || isUserDefined)

/-- `flattenParameters` (lines 415-426): drop parameters with a nil `Value`,
lowercase the name, dereference the value. -/
def flattenParameters : List Parameter → List (String × String)
  | [] => []
  | i :: rest =>
    match i.Value with
    | some v => ((awsStringValue i.Name).toLower, v) :: flattenParameters rest
    | none => flattenParameters rest

/-- One raw element of the `parameter` set as `createUserDefinedParameterMap`
sees it: either not a `map[string]interface{}` at all, or a map whose
`name` / `value` fields each are a string (`some`) or missing / of another
type (`none`). -/
inductive RawSetElem where
  | notMap : RawSetElem
  | entry (name : Option String) (value : Option String) : RawSetElem
deriving DecidableEq, Repr

/-- Loop body of `createUserDefinedParameterMap` (lines 438-455): skip
non-map elements, empty or non-string names, empty or non-string values;
otherwise assign `result[name] = value`. -/
def userDefinedStep (result : List (String × String)) (param : RawSetElem) :
    List (String × String) :=
  match param with
  | .notMap => result
  | .entry n v =>
    match n with
    | none => result
    | some name =>
      if name == "" then result
      else
        match v with
        | none => result
        | some value =>
          if value == "" then result
          else goMapInsert result name value

/-- `createUserDefinedParameterMap` (lines 435-458). -/
def createUserDefinedParameterMap (params : List RawSetElem) : List (String × String) :=
  params.foldl userDefinedStep []

/-- `resourceParameterGroupDelete` (lines 254-271): a not-found error code from
the remote delete is swallowed, any other error is surfaced. -/
def resourceParameterGroupDelete (deleteErr : Option AwsErr) : Option AwsErr :=
  match deleteErr with
  | some e => if e.code == "ParameterGroupNotFoundFault" then none else some e
  | none => none

/-- Result of `FindParameterGroupByName`: the group, a not-found error, or
another error. Only the group's presence matters to the claims, so the group
payload is its name. -/
inductive LookupResult where
  | success (groupName : String) : LookupResult
  | notFound : LookupResult
  | failure (e : AwsErr) : LookupResult
deriving DecidableEq, Repr

/-- Disposition of a read. `removedFromState` models `d.SetId(""); return nil`
(identifier cleared, no error); `hardError` models returning a diagnostic. -/
inductive ReadOutcome where
  | removedFromState : ReadOutcome
  | hardError : ReadOutcome
  | proceed (groupName : String) : ReadOutcome
deriving DecidableEq, Repr

/-- Is the lookup error a not-found error (`tfresource.NotFound`)? -/
def lookupIsNotFound : LookupResult → Bool
  | .notFound => true
  | _ => false

/-- The not-found handling of `resourceParameterGroupRead` (lines 205-215):
`if !d.IsNewResource() && tfresource.NotFound(err) { d.SetId(""); return nil }`
then `if err != nil { return diag.Errorf(...) }`. -/
def resourceParameterGroupRead (isNewResource : Bool) (lookup : LookupResult) :
    ReadOutcome :=
  if !isNewResource && lookupIsNotFound lookup then
    .removedFromState
  else
    match lookup with
    | .success g => .proceed g
    | .notFound => .hardError
    | .failure _ => .hardError

/-- Does `l` start with `p`? (`strings.HasPrefix` on rune lists.) -/
def startsWith : List Char → List Char → Bool
  | [], _ => true
  | _ :: _, [] => false
  | a :: p, b :: l => a == b && startsWith p l

/-- Does `l` contain `p` as a contiguous substring? (`strings.Contains`,
which `tfawserr.ErrMessageContains` and Go regexp matching of a literal
pattern reduce to.) -/
def containsSub (p : List Char) : List Char → Bool
  | [] => p.isEmpty
  | c :: rest => startsWith p (c :: rest) || containsSub p rest

/-- `tfawserr.ErrMessageContains`: the error has the given code and its
message contains the given substring. -/
def errMessageContains (e : AwsErr) (code msg : String) : Bool :=
  e.code == code && containsSub msg.toList e.message.toList

/-- The retryable-error test of `resetParameterGroupParameters` (line 288):
code `InvalidParameterGroupStateFault` with " has pending changes" in the
message. -/
def retryableResetError (e : AwsErr) : Bool :=
  errMessageContains e "InvalidParameterGroupStateFault" " has pending changes"

/-- The `resource.Retry` loop of `resetParameterGroupParameters`
(lines 285-294). `responses i` is the outcome of the `ResetParameterGroup`
call on attempt `i` (`none` = success); `fuel` is how many retries the
30-second budget still allows. Returns the total number of attempts made and
the surfaced error, if any. -/
def resetAttempts (responses : Nat → Option AwsErr) : Nat → Nat → Nat × Option AwsErr
  | fuel, attempt =>
    match responses attempt with
    | none => (attempt + 1, none)
    | some e =>
      if retryableResetError e then
        match fuel with
        | 0 => (attempt + 1, some e)
        | fuel' + 1 => resetAttempts responses fuel' (attempt + 1)
      else
        (attempt + 1, some e)

/-- `resetParameterGroupParameters` (lines 274-295): run the retry loop from
attempt 0. -/
def resetParameterGroupParameters (responses : Nat → Option AwsErr) (fuel : Nat) :
    Nat × Option AwsErr :=
  resetAttempts responses fuel 0

/-- `modifyParameterGroupParameters` (lines 298-305): a single
`UpdateParameterGroup` call, its error returned as-is — one attempt, no
retry. -/
def modifyParameterGroupParameters (callErr : Option AwsErr) : Nat × Option AwsErr :=
  (1, callErr)

/-- One batching loop of `resourceParameterGroupUpdate` (lines 155-186): while
the list is non-empty, slice off at most `maxParams = 20` items, issue one
remote call with the slice (`call slice` is that call's outcome), abort on the
first error. Returns the slices passed to the calls, in order, and the error
that stopped the loop, if any. -/
def applyBatches {α : Type} (call : List α → Option AwsErr) (l : List α) :
    List (List α) × Option AwsErr :=
  if l.isEmpty then
    ([], none)
  else if _hlen : l.length ≤ 20 then
    match call l with
    | some e => ([l], some e)
    | none => ([l], none)
  else
    match call (l.take 20) with
    | some e => ([l.take 20], some e)
    | none =>
      let r := applyBatches call (l.drop 20)
      (l.take 20 :: r.1, r.2)
termination_by l.length
decreasing_by
  simp only [List.length_drop]
  omega

/-- Is `c` in the Go regexp character class `[a-z0-9]`? -/
def lowerAlnum (c : Char) : Bool :=
  ('a' ≤ c && c ≤ 'z') || ('0' ≤ c && c ≤ '9')

/-- Is `c` in the Go regexp character class `[a-z0-9-]`? -/
def nameCharOK (c : Char) : Bool :=
  lowerAlnum c || c == '-'

/-- Full match of the anchored Go regexp for the `name`
attribute: all leading characters in `[a-z0-9-]` and a final character in
`[a-z0-9]` (so the string is non-empty and does not end in a hyphen). -/
def matchesNamePattern : List Char → Bool
  | [] => false
  | [c] => lowerAlnum c
  | c :: c2 :: rest => nameCharOK c && matchesNamePattern (c2 :: rest)

/-- The `ValidateFunc` of the `name` attribute (lines 61-70):
`validation.All` of `StringLenBetween(1, 255)`, `StringDoesNotMatch` on a
double-hyphen pattern, and `StringMatch` on the anchored name pattern. -/
def validateParameterGroupName (s : String) : Bool :=
  (decide (1 ≤ s.toList.length) && decide (s.toList.length ≤ 255))
  && !containsSub ['-', '-'] s.toList
  && matchesNamePattern s.toList

/-! ### Association-map lemmas -/

theorem mem_keys {l : List (String × String)} {name : String} :
    name ∈ keys l ↔ ∃ v, (name, v) ∈ l := by
  simp only [keys, List.mem_map]
  constructor
  · rintro ⟨⟨a, b⟩, hmem, rfl⟩
    exact ⟨b, hmem⟩
  · rintro ⟨v, hv⟩
    exact ⟨(name, v), hv, rfl⟩

theorem goMapLookup_eq_none {m : List (String × String)} {k : String} :
    goMapLookup m k = none ↔ k ∉ keys m := by
  rw [goMapLookup, Option.map_eq_none', List.find?_eq_none]
  simp only [mem_keys, beq_iff_eq]
  constructor
  · rintro h ⟨v, hv⟩
    exact h _ hv rfl
  · rintro h ⟨a, b⟩ hm rfl
    exact h ⟨b, hm⟩

theorem goMapLookup_eq_some_of_mem {m : List (String × String)}
    (h : (keys m).Nodup) {k v : String} (hm : (k, v) ∈ m) :
    goMapLookup m k = some v := by
  induction m with
  | nil => cases hm
  | cons hd tl ih =>
    obtain ⟨k0, v0⟩ := hd
    simp only [keys, List.map_cons, List.nodup_cons] at h
    rcases List.mem_cons.mp hm with heq | htl
    · obtain ⟨rfl, rfl⟩ := Prod.mk.injEq .. ▸ heq
      simp [goMapLookup, List.find?_cons]
    · have hne : k ≠ k0 := by
        rintro rfl
        exact h.1 (mem_keys.mpr ⟨v, htl⟩)
      have : ((k0, v0).1 == k) = false := by
        simp [beq_eq_false_iff_ne]
        exact fun h' => hne h'.symm
      rw [goMapLookup, List.find?_cons, this]
      exact ih h.2 htl

theorem keys_goMapInsert {m : List (String × String)} {k v : String} :
    keys (goMapInsert m k v) =
      if m.any (fun p => p.1 == k) then keys m else keys m ++ [k] := by
  unfold goMapInsert
  rcases hany : m.any (fun p => p.1 == k) with _ | _
  · simp [hany, keys]
  · simp only [hany, if_true, keys, List.map_map]
    congr 1
    funext p
    by_cases hp : p.1 == k
    · simp only [Function.comp_apply, hp, if_true]
      exact (beq_iff_eq.mp hp).symm
    · have hne : p.1 ≠ k := fun he => hp (beq_iff_eq.mpr he)
      simp [Function.comp_apply, hne]

theorem mem_keys_goMapInsert {m : List (String × String)} {a k v : String} :
    a ∈ keys (goMapInsert m k v) ↔ a ∈ keys m ∨ a = k := by
  rw [keys_goMapInsert]
  rcases hany : m.any (fun p => p.1 == k) with _ | _
  · simp [hany, List.mem_append]
  · simp only [hany, if_true]
    constructor
    · exact Or.inl
    · rintro (h' | rfl)
      · exact h'
      · rcases List.any_eq_true.mp hany with ⟨p, hp, hpk⟩
        have hpa : p.1 = a := beq_iff_eq.mp hpk
        exact hpa ▸ mem_keys.mpr ⟨p.2, by simpa using hp⟩

theorem nodup_keys_goMapInsert {m : List (String × String)} {k v : String}
    (h : (keys m).Nodup) : (keys (goMapInsert m k v)).Nodup := by
  rw [keys_goMapInsert]
  rcases hany : m.any (fun p => p.1 == k) with _ | _
  · have hnk : k ∉ keys m := by
      intro hmem
      rcases mem_keys.mp hmem with ⟨v', hv'⟩
      have : m.any (fun p => p.1 == k) = true := List.any_eq_true.mpr ⟨(k, v'), hv', by simp⟩
      rw [hany] at this
      cases this
    simp only [Bool.false_eq_true, if_false]
    refine List.nodup_append.mpr ⟨h, List.nodup_singleton k, ?_⟩
    intro a ha hak
    rw [List.mem_singleton.mp hak] at ha
    exact hnk ha
  · simpa [hany] using h

theorem nodup_keys_goMapOfList (l : List (String × String)) :
    (keys (goMapOfList l)).Nodup := by
  suffices h : ∀ (l m : List (String × String)), (keys m).Nodup →
      (keys (l.foldl (fun m p => goMapInsert m p.1 p.2) m)).Nodup by
    exact h l [] (by simp [keys])
  intro l
  induction l with
  | nil => intro m hm; simpa using hm
  | cons hd tl ih =>
    intro m hm
    exact ih _ (nodup_keys_goMapInsert hm)

theorem goMapOfList_eq_self {l : List (String × String)}
    (h : (keys l).Nodup) : goMapOfList l = l := by
  suffices haux : ∀ (l m : List (String × String)), (keys (m ++ l)).Nodup →
      l.foldl (fun m p => goMapInsert m p.1 p.2) m = m ++ l by
    simpa using haux l [] (by simpa using h)
  intro l
  induction l with
  | nil => intro m _; simp
  | cons hd tl ih =>
    intro m hm
    obtain ⟨k, v⟩ := hd
    have hkm : k ∉ keys m := by
      intro hmem
      have : ¬ (keys m).Disjoint (keys ((k, v) :: tl)) := by
        intro hd
        exact hd hmem (by simp [keys])
      simp only [keys, List.map_append] at hm
      exact this (List.nodup_append.mp hm).2.2
    have hstep : goMapInsert m k v = m ++ [(k, v)] := by
      unfold goMapInsert
      have : m.any (fun p => p.1 == k) = false := by
        rcases hany : m.any (fun p => p.1 == k) with _ | _
        · rfl
        · rcases List.any_eq_true.mp hany with ⟨p, hp, hpk⟩
          exact absurd ((beq_iff_eq.mp hpk) ▸ mem_keys.mpr ⟨p.2, by simpa using hp⟩) hkm
      simp [this]
    calc ((k, v) :: tl).foldl (fun m p => goMapInsert m p.1 p.2) m
        = tl.foldl (fun m p => goMapInsert m p.1 p.2) (goMapInsert m k v) := by
          simp [List.foldl_cons]
      _ = tl.foldl (fun m p => goMapInsert m p.1 p.2) (m ++ [(k, v)]) := by rw [hstep]
      _ = (m ++ [(k, v)]) ++ tl := by
          apply ih
          rw [List.append_assoc, List.singleton_append]
          exact hm
      _ = m ++ (k, v) :: tl := by rw [List.append_assoc, List.singleton_append]

theorem mem_keys_iff_lookup_isSome {m : List (String × String)} {k : String} :
    (goMapLookup m k).isSome = true ↔ k ∈ keys m := by
  rcases hl : goMapLookup m k with _ | v
  · simp only [Option.isSome_none, Bool.false_eq_true, false_iff]
    exact goMapLookup_eq_none.mp hl
  · simp only [Option.isSome_some, true_iff]
    by_contra hk
    rw [goMapLookup_eq_none.mpr hk] at hl
    cases hl

/-! ### Claim theorems -/

/-- Claim C5: the delete operation is idempotent with respect to absence: a
remote delete failing with the parameter-group-not-found error code yields
success, a successful remote delete yields success, and any other remote
delete error is surfaced unchanged. -/
theorem delete_idempotent_wrt_absence :
    (∀ e : AwsErr, e.code = "ParameterGroupNotFoundFault" →
      resourceParameterGroupDelete (some e) = none)
    ∧ resourceParameterGroupDelete none = none
    ∧ (∀ e : AwsErr, e.code ≠ "ParameterGroupNotFoundFault" →
      resourceParameterGroupDelete (some e) = some e) := by
  refine ⟨fun e he => ?_, rfl, fun e he => ?_⟩
  · simp [resourceParameterGroupDelete, he]
  · simp [resourceParameterGroupDelete, he]

/-- Witness for C5 at concrete errors. -/
theorem delete_idempotent_wrt_absence_witness :
    resourceParameterGroupDelete (some ⟨"ParameterGroupNotFoundFault", "not found"⟩) = none
    ∧ resourceParameterGroupDelete (some ⟨"InternalServerException", "boom"⟩) =
        some ⟨"InternalServerException", "boom"⟩ :=
  ⟨delete_idempotent_wrt_absence.1 _ rfl,
   delete_idempotent_wrt_absence.2.2 _ (by decide)⟩

/-- Claim C7: on read, a not-found lookup on a resource that is not freshly
created clears the identifier and returns success (`removedFromState`), while
a not-found lookup on a freshly created resource is a hard error. -/
theorem read_not_found_handling :
    resourceParameterGroupRead false .notFound = .removedFromState
    ∧ resourceParameterGroupRead true .notFound = .hardError := by
  exact ⟨rfl, rfl⟩

/-- Claim C8: diffing a declared parameter set against itself is a no-op:
both output lists are empty. -/
theorem parameterChanges_self_noop (o : List (String × String)) :
    ParameterChanges o o = ([], []) := by
  have hnd : (keys (goMapOfList o)).Nodup := nodup_keys_goMapOfList o
  unfold ParameterChanges
  refine Prod.ext ?_ ?_
  · simp only
    rw [List.filter_eq_nil_iff]
    intro p hp
    have hk : p.1 ∈ keys (goMapOfList o) := mem_keys.mpr ⟨p.2, by simpa using hp⟩
    rcases hl : goMapLookup (goMapOfList o) p.1 with _ | v
    · exact absurd (goMapLookup_eq_none.mp hl) (by simpa using hk)
    · simp [hl]
  · simp only
    rw [List.filter_eq_nil_iff]
    intro p hp
    have hl : goMapLookup (goMapOfList o) p.1 = some p.2 :=
      goMapLookup_eq_some_of_mem hnd (by simpa using hp)
    simp [hl]

/-- Claim C9: the surfaced parameter list is exactly the input with nil-valued
parameters dropped and every kept name lowercased (the Go loop realises this
filter-then-map). -/
theorem flattenParameters_lowercases_and_drops_nil (l : List Parameter) :
    flattenParameters l =
      (l.filter (fun p => p.Value.isSome)).map
        (fun p => ((awsStringValue p.Name).toLower, awsStringValue p.Value)) := by
  induction l with
  | nil => rfl
  | cons hd tl ih =>
    rcases hv : hd.Value with _ | v
    · simp [flattenParameters, hv, ih]
    · simp [flattenParameters, hv, ih, awsStringValue]

/-- Claim C1: for name-unique old/new declared sets, `ParameterChanges`
partitions the names correctly: a name in old but not new appears exactly once
in the remove output; a name in new whose value differs from old's (or is
absent from old) appears exactly once in the addOrUpdate output; no name is in
both outputs; a name in both sets with an unchanged value is in neither. -/
theorem parameterChanges_partitions (o n : List (String × String))
    (ho : (keys o).Nodup) (hn : (keys n).Nodup) :
    (∀ name, name ∈ keys o → name ∉ keys n →
      (keys (ParameterChanges o n).1).count name = 1)
    ∧ (∀ name v, (name, v) ∈ n → goMapLookup o name ≠ some v →
      (keys (ParameterChanges o n).2).count name = 1)
    ∧ (∀ name, ¬(name ∈ keys (ParameterChanges o n).1
        ∧ name ∈ keys (ParameterChanges o n).2))
    ∧ (∀ name v, (name, v) ∈ o → (name, v) ∈ n →
      name ∉ keys (ParameterChanges o n).1 ∧ name ∉ keys (ParameterChanges o n).2) := by
  have hpc : ParameterChanges o n =
      (o.filter (fun p => (goMapLookup n p.1).isNone),
       n.filter (fun p =>
         match goMapLookup o p.1 with
         | none => true
         | some ov => p.2 != ov)) := by
    unfold ParameterChanges
    rw [goMapOfList_eq_self ho, goMapOfList_eq_self hn]
  rw [hpc]
  have hrnd : (keys (o.filter (fun p => (goMapLookup n p.1).isNone))).Nodup :=
    ((o.filter_sublist).map Prod.fst).nodup ho
  have hand : (keys (n.filter (fun p =>
      match goMapLookup o p.1 with
      | none => true
      | some ov => p.2 != ov))).Nodup :=
    ((n.filter_sublist).map Prod.fst).nodup hn
  refine ⟨?_, ?_, ?_, ?_⟩
  · intro name hmo hmn
    obtain ⟨v, hv⟩ := mem_keys.mp hmo
    have hl : goMapLookup n name = none := goMapLookup_eq_none.mpr hmn
    have hmemf : (name, v) ∈ o.filter (fun p => (goMapLookup n p.1).isNone) :=
      List.mem_filter.mpr ⟨hv, by simp [hl]⟩
    exact List.count_eq_one_of_mem hrnd (mem_keys.mpr ⟨v, hmemf⟩)
  · intro name v hvn hneq
    have hpred : (match goMapLookup o name with
        | none => true
        | some ov => v != ov) = true := by
      rcases hl : goMapLookup o name with _ | ov
      · rfl
      · have : v ≠ ov := by
          intro h
          exact hneq (h ▸ hl)
        simpa [bne_iff_ne]
    have hmemf : (name, v) ∈ n.filter (fun p =>
        match goMapLookup o p.1 with
        | none => true
        | some ov => p.2 != ov) :=
      List.mem_filter.mpr ⟨hvn, hpred⟩
    exact List.count_eq_one_of_mem hand (mem_keys.mpr ⟨v, hmemf⟩)
  · rintro name ⟨h1, h2⟩
    obtain ⟨v, hv⟩ := mem_keys.mp h1
    obtain ⟨w, hw⟩ := mem_keys.mp h2
    obtain ⟨hvo, hvp⟩ := List.mem_filter.mp hv
    obtain ⟨hwn, -⟩ := List.mem_filter.mp hw
    have hnone : goMapLookup n name = none := by
      simpa [Option.isNone_iff_eq_none] using hvp
    exact goMapLookup_eq_none.mp hnone (mem_keys.mpr ⟨w, hwn⟩)
  · intro name v hvo hvn
    have hlo : goMapLookup o name = some v := goMapLookup_eq_some_of_mem ho hvo
    have hln : goMapLookup n name = some v := goMapLookup_eq_some_of_mem hn hvn
    constructor
    · intro hmem
      obtain ⟨w, hw⟩ := mem_keys.mp hmem
      obtain ⟨-, hwp⟩ := List.mem_filter.mp hw
      simp [hln] at hwp
    · intro hmem
      obtain ⟨w, hw⟩ := mem_keys.mp hmem
      obtain ⟨hwn, hwp⟩ := List.mem_filter.mp hw
      have hw' : w = v := by
        have := goMapLookup_eq_some_of_mem hn hwn
        rw [hln] at this
        exact (Option.some.injEq .. ▸ this).symm
      simp [hlo, hw'] at hwp

/-- Witness for C1 at concrete sets: old `{a↦1, b↦2}`, new `{b↦3, c↦4}`. -/
theorem parameterChanges_partitions_witness :
    (keys (ParameterChanges [("a", "1"), ("b", "2")] [("b", "3"), ("c", "4")]).1).count "a" = 1
    ∧ (keys (ParameterChanges [("a", "1"), ("b", "2")] [("b", "3"), ("c", "4")]).2).count "b" = 1
    ∧ (keys (ParameterChanges [("a", "1"), ("b", "2")] [("b", "3"), ("c", "4")]).2).count "c" = 1 := by
  have h := parameterChanges_partitions [("a", "1"), ("b", "2")] [("b", "3"), ("c", "4")]
    (by decide) (by decide)
  exact ⟨h.1 "a" (by decide) (by decide),
    h.2.1 "b" "3" (by decide) (by decide),
    h.2.1 "c" "4" (by decide) (by decide)⟩

/-- Claim C2: for a name-unique family default listing, the effective-state
lister keeps a parameter of the current listing exactly when its current value
differs from the default recorded for its name (a name absent from the
defaults having the empty default) or its name is user-declared. -/
theorem listParameterGroupParameters_effective_iff
    (defaults current : List Parameter) (userDefined : List (String × String))
    (hnd : (defaults.map (fun d => awsStringValue d.Name)).Nodup)
    (p : Parameter) :
    p ∈ listParameterGroupParameters defaults current userDefined ↔
      p ∈ current ∧
        (awsStringValue p.Value ≠
            ((defaults.find? (fun d => awsStringValue d.Name == awsStringValue p.Name)).map
              (fun d => awsStringValue d.Value)).getD ""
          ∨ awsStringValue p.Name ∈ userDefined.map Prod.fst) := by
  have hmap : defaultValueByName defaults =
      defaults.map (fun d => (awsStringValue d.Name, awsStringValue d.Value)) := by
    apply goMapOfList_eq_self
    simpa [keys, List.map_map, Function.comp] using hnd
  have hlook : goMapLookup (defaultValueByName defaults) (awsStringValue p.Name) =
      (defaults.find? (fun d => awsStringValue d.Name == awsStringValue p.Name)).map
        (fun d => awsStringValue d.Value) := by
    rw [hmap, goMapLookup, List.find?_map, Option.map_map]
    rfl
  rw [listParameterGroupParameters, List.mem_filter]
  constructor
  · rintro ⟨hmem, hpred⟩
    refine ⟨hmem, ?_⟩
    simp only [Bool.or_eq_true, bne_iff_ne, ne_eq] at hpred
    rcases hpred with hne | hud
    · exact Or.inl (by rw [← hlook]; exact hne)
    · exact Or.inr (mem_keys_iff_lookup_isSome.mp hud)
  · rintro ⟨hmem, hcond⟩
    refine ⟨hmem, ?_⟩
    simp only [Bool.or_eq_true, bne_iff_ne, ne_eq]
    rcases hcond with hne | hud
    · exact Or.inl (by rw [hlook]; exact hne)
    · exact Or.inr (mem_keys_iff_lookup_isSome.mpr hud)

/-- Witness for C2 at the spec's worked example: defaults `{A↦1, B↦2}`,
current `{A↦1, B↦3, C↦4}`, user-declared `{A}`: all three current parameters
are surfaced (A only because it is user-declared). -/
theorem listParameterGroupParameters_effective_iff_witness :
    (⟨some "A", some "1"⟩ : Parameter) ∈ listParameterGroupParameters
      [⟨some "A", some "1"⟩, ⟨some "B", some "2"⟩]
      [⟨some "A", some "1"⟩, ⟨some "B", some "3"⟩, ⟨some "C", some "4"⟩] [("A", "1")]
    ∧ (⟨some "B", some "3"⟩ : Parameter) ∈ listParameterGroupParameters
      [⟨some "A", some "1"⟩, ⟨some "B", some "2"⟩]
      [⟨some "A", some "1"⟩, ⟨some "B", some "3"⟩, ⟨some "C", some "4"⟩] [("A", "1")]
    ∧ (⟨some "C", some "4"⟩ : Parameter) ∈ listParameterGroupParameters
      [⟨some "A", some "1"⟩, ⟨some "B", some "2"⟩]
      [⟨some "A", some "1"⟩, ⟨some "B", some "3"⟩, ⟨some "C", some "4"⟩] [("A", "1")] :=
  ⟨(listParameterGroupParameters_effective_iff _ _ _ (by decide) _).mpr
      ⟨by decide, Or.inr (by decide)⟩,
   (listParameterGroupParameters_effective_iff _ _ _ (by decide) _).mpr
      ⟨by decide, Or.inl (by decide)⟩,
   (listParameterGroupParameters_effective_iff _ _ _ (by decide) _).mpr
      ⟨by decide, Or.inl (by decide)⟩⟩

/-- Claim C3: when every remote call succeeds, the batching loop issues
exactly ⌈L/20⌉ calls for a list of length L, each slice has at most 20 items,
and the slices concatenate back to the input list (no repetition, no
omission), with no error surfaced. -/
theorem applyBatches_batches_correctly {α : Type} (call : List α → Option AwsErr)
    (l : List α) (hok : ∀ s, call s = none) :
    (applyBatches call l).1.length = (l.length + 19) / 20
    ∧ (∀ b ∈ (applyBatches call l).1, b.length ≤ 20)
    ∧ (applyBatches call l).1.flatten = l
    ∧ (applyBatches call l).2 = none := by
  refine applyBatches.induct call
    (fun x => (applyBatches call x).1.length = (x.length + 19) / 20
      ∧ (∀ b ∈ (applyBatches call x).1, b.length ≤ 20)
      ∧ (applyBatches call x).1.flatten = x
      ∧ (applyBatches call x).2 = none) ?_ ?_ ?_ ?_ ?_ l
  · intro x hempty
    obtain rfl : x = [] := by simpa [List.isEmpty_iff] using hempty
    rw [applyBatches.eq_def]
    simp
  · intro x hempty hlen e hcall
    rw [hok] at hcall
    cases hcall
  · intro x hempty hlen hcall
    have hx : x ≠ [] := by simpa [List.isEmpty_iff] using hempty
    have hpos : 0 < x.length := List.length_pos.mpr hx
    rw [applyBatches.eq_def, if_neg hempty, dif_pos hlen, hcall]
    refine ⟨by simp; omega, ?_, by simp, rfl⟩
    intro b hb
    rw [List.mem_singleton.mp hb]
    exact hlen
  · intro x hempty hlen e hcall
    rw [hok] at hcall
    cases hcall
  · intro x hempty hlen hcall ih
    obtain ⟨ih1, ih2, ih3, ih4⟩ := ih
    rw [applyBatches.eq_def, if_neg hempty, dif_neg hlen, hcall]
    simp only
    refine ⟨?_, ?_, ?_, ih4⟩
    · simp only [List.length_cons, ih1, List.length_drop]
      have h21 : 21 ≤ x.length := by omega
      omega
    · intro b hb
      rcases List.mem_cons.mp hb with rfl | hb'
      · simp [List.length_take]
      · exact ih2 b hb'
    · simp only [List.flatten_cons, ih3]
      exact List.take_append_drop 20 x

/-- Witness for C3: 25 items, all calls succeeding, gives 2 calls covering the
list exactly. -/
theorem applyBatches_batches_correctly_witness :
    (applyBatches (fun _ => none) (List.range 25)).1.length = 2
    ∧ (∀ b ∈ (applyBatches (fun _ => none) (List.range 25)).1, b.length ≤ 20)
    ∧ (applyBatches (fun _ => none) (List.range 25)).1.flatten = List.range 25
    ∧ (applyBatches (fun _ => none) (List.range 25)).2 = none := by
  have h := applyBatches_batches_correctly (fun _ => none) (List.range 25) (fun _ => rfl)
  refine ⟨?_, h.2.1, h.2.2.1, h.2.2.2⟩
  rw [h.1]
  decide

theorem resetAttempts_pending_then_ok (responses : Nat → Option AwsErr) :
    ∀ (K fuel attempt : Nat),
      (∀ i, i < K → ∃ e, responses (attempt + i) = some e ∧ retryableResetError e = true) →
      responses (attempt + K) = none → K ≤ fuel →
      resetAttempts responses fuel attempt = (attempt + K + 1, none) := by
  intro K
  induction K with
  | zero =>
    intro fuel attempt hK hok hfuel
    rw [Nat.add_zero] at hok
    simp [resetAttempts, hok]
  | succ K ih =>
    intro fuel attempt hK hok hfuel
    obtain ⟨e, he, hr⟩ := hK 0 (by omega)
    rw [Nat.add_zero] at he
    obtain ⟨fuel', rfl⟩ : ∃ f, fuel = f + 1 := ⟨fuel - 1, by omega⟩
    have h1 : ∀ i, i < K → ∃ e', responses ((attempt + 1) + i) = some e'
        ∧ retryableResetError e' = true := by
      intro i hi
      have h := hK (i + 1) (by omega)
      rwa [show attempt + (i + 1) = (attempt + 1) + i by omega] at h
    have h2 : responses ((attempt + 1) + K) = none := by
      rwa [show (attempt + 1) + K = attempt + (K + 1) by omega]
    have hrec := ih fuel' (attempt + 1) h1 h2 (by omega)
    rw [resetAttempts, he]
    simp only [hr, if_true, hrec]
    congr 1
    omega

/-- Claim C4: in the reset path, K retryable "pending changes" failures
followed by a success (within the retry budget) yield success after exactly
K+1 attempts; a non-retryable error on the first attempt is surfaced after
exactly one attempt; the apply path always makes exactly one call and
surfaces its outcome unchanged (no retry). -/
theorem reset_retries_pending_apply_does_not (responses : Nat → Option AwsErr)
    (K fuel : Nat)
    (hK : ∀ i, i < K → ∃ e, responses i = some e ∧ retryableResetError e = true)
    (hok : responses K = none) (hfuel : K ≤ fuel) :
    resetParameterGroupParameters responses fuel = (K + 1, none)
    ∧ (∀ (r : Nat → Option AwsErr) (e : AwsErr) (f : Nat),
        r 0 = some e → retryableResetError e = false →
        resetParameterGroupParameters r f = (1, some e))
    ∧ (∀ callErr : Option AwsErr, modifyParameterGroupParameters callErr = (1, callErr)) := by
  refine ⟨?_, ?_, fun _ => rfl⟩
  · have h := resetAttempts_pending_then_ok responses K fuel 0
      (by simpa using hK) (by simpa using hok) hfuel
    simpa [resetParameterGroupParameters] using h
  · intro r e f hr hnr
    simp [resetParameterGroupParameters, resetAttempts, hr, hnr]

/-- Witness for C4: a call failing twice with the pending-changes conflict and
then succeeding takes 3 attempts; a non-retryable first failure is surfaced
after 1 attempt; the apply path surfaces its single call's error. -/
theorem reset_retries_pending_apply_does_not_witness :
    resetParameterGroupParameters
      (fun i => if i < 2
        then some ⟨"InvalidParameterGroupStateFault", "pg has pending changes"⟩
        else none) 5 = (3, none)
    ∧ resetParameterGroupParameters (fun _ => some ⟨"ValidationException", "bad"⟩) 5 =
        (1, some ⟨"ValidationException", "bad"⟩)
    ∧ modifyParameterGroupParameters (some ⟨"ValidationException", "bad"⟩) =
        (1, some ⟨"ValidationException", "bad"⟩) := by
  have h := reset_retries_pending_apply_does_not
    (fun i => if i < 2
      then some ⟨"InvalidParameterGroupStateFault", "pg has pending changes"⟩
      else none)
    2 5
    (fun i hi => ⟨⟨"InvalidParameterGroupStateFault", "pg has pending changes"⟩,
      by simp [hi], by decide⟩)
    (by decide) (by decide)
  exact ⟨h.1, h.2.1 _ _ 5 rfl (by decide), h.2.2 _⟩

theorem startsWith_iff (p : List Char) : ∀ l, startsWith p l = true ↔ ∃ t, l = p ++ t := by
  induction p with
  | nil => intro l; simp [startsWith]
  | cons a p ih =>
    intro l
    cases l with
    | nil =>
      simp only [startsWith, Bool.false_eq_true, false_iff]
      rintro ⟨t, ht⟩
      cases ht
    | cons b l =>
      simp only [startsWith, Bool.and_eq_true, beq_iff_eq]
      constructor
      · rintro ⟨rfl, h⟩
        obtain ⟨t, rfl⟩ := (ih l).mp h
        exact ⟨t, rfl⟩
      · rintro ⟨t, ht⟩
        injection ht with h1 h2
        exact ⟨h1.symm, (ih l).mpr ⟨t, h2⟩⟩

theorem containsSub_iff (p : List Char) : ∀ l, containsSub p l = true ↔ ∃ u t, l = u ++ p ++ t := by
  intro l
  induction l with
  | nil =>
    simp only [containsSub, List.isEmpty_iff]
    constructor
    · rintro rfl
      exact ⟨[], [], rfl⟩
    · rintro ⟨u, t, ht⟩
      rcases List.append_eq_nil.mp ht.symm with ⟨h1, -⟩
      exact (List.append_eq_nil.mp h1).2
  | cons c rest ih =>
    simp only [containsSub, Bool.or_eq_true, ih, startsWith_iff]
    constructor
    · rintro (⟨t, ht⟩ | ⟨u, t, ht⟩)
      · exact ⟨[], t, by simpa using ht⟩
      · exact ⟨c :: u, t, by simp [ht]⟩
    · rintro ⟨u, t, ht⟩
      cases u with
      | nil => exact Or.inl ⟨t, by simpa using ht⟩
      | cons c' u' =>
        injection ht with h1 h2
        exact Or.inr ⟨u', t, h2⟩

theorem lowerAlnum_iff_nameCharOK {c : Char} :
    lowerAlnum c = true ↔ nameCharOK c = true ∧ c ≠ '-' := by
  constructor
  · intro h
    refine ⟨by simp [nameCharOK, h], ?_⟩
    rintro rfl
    have : lowerAlnum '-' = false := by decide
    rw [this] at h
    cases h
  · rintro ⟨h, hne⟩
    have h' : lowerAlnum c = true ∨ c = '-' := by simpa [nameCharOK] using h
    rcases h' with h2 | h2
    · exact h2
    · exact absurd h2 hne

theorem matchesNamePattern_iff : ∀ l : List Char,
    matchesNamePattern l = true ↔
      l ≠ [] ∧ (∀ c ∈ l, nameCharOK c = true) ∧ l.getLast? ≠ some '-' := by
  intro l
  induction l with
  | nil => simp [matchesNamePattern]
  | cons c rest ih =>
    cases rest with
    | nil =>
      have hm : matchesNamePattern [c] = lowerAlnum c := rfl
      rw [hm, lowerAlnum_iff_nameCharOK]
      constructor
      · rintro ⟨hok, hne⟩
        refine ⟨by simp, ?_, by simpa using hne⟩
        intro c' hc'
        rw [List.mem_singleton.mp hc']
        exact hok
      · rintro ⟨-, hok, hne⟩
        exact ⟨hok c (List.mem_singleton.mpr rfl), by simpa using hne⟩
    | cons c2 rest' =>
      simp only [matchesNamePattern, Bool.and_eq_true, ih, List.getLast?_cons_cons]
      constructor
      · rintro ⟨hc, -, hall, hlast⟩
        refine ⟨by simp, ?_, hlast⟩
        intro c' hc'
        rcases List.mem_cons.mp hc' with rfl | hc''
        · exact hc
        · exact hall c' hc''
      · rintro ⟨-, hall, hlast⟩
        exact ⟨hall c (List.mem_cons_self ..), by simp, fun c' hc' =>
          hall c' (List.mem_cons_of_mem _ hc'), hlast⟩

/-- Counterexample to claim C6 as stated: the string "-a" has a leading hyphen
yet is accepted by the name validation (the anchored pattern only forbids a
hyphen as the final character). -/
theorem name_validation_accepts_leading_hyphen :
    validateParameterGroupName "-a" = true ∧ "-a".toList.head? = some '-' := by
  decide

/-- Claim C6 (amended): a string is accepted by the name validation iff it has
1 to 255 characters, every character is a lowercase letter, digit or hyphen,
it does not end in a hyphen, and it contains no two consecutive hyphens.
(A leading hyphen is NOT rejected, contrary to the claim as stated.) -/
theorem name_validation_characterization (s : String) :
    validateParameterGroupName s = true ↔
      1 ≤ s.toList.length ∧ s.toList.length ≤ 255
      ∧ (∀ c ∈ s.toList, ('a' ≤ c ∧ c ≤ 'z') ∨ ('0' ≤ c ∧ c ≤ '9') ∨ c = '-')
      ∧ s.toList.getLast? ≠ some '-'
      ∧ ¬ ∃ u t, s.toList = u ++ ['-', '-'] ++ t := by
  have hchar : ∀ c : Char, nameCharOK c = true ↔
      (('a' ≤ c ∧ c ≤ 'z') ∨ ('0' ≤ c ∧ c ≤ '9') ∨ c = '-') := by
    intro c
    simp [nameCharOK, lowerAlnum, beq_iff_eq, Bool.or_eq_true, Bool.and_eq_true,
      decide_eq_true_iff, or_assoc]
  unfold validateParameterGroupName
  simp only [Bool.and_eq_true, decide_eq_true_eq, Bool.not_eq_true',
    matchesNamePattern_iff]
  constructor
  · rintro ⟨⟨⟨h1, h2⟩, hsub⟩, -, hall, hlast⟩
    refine ⟨h1, h2, fun c hc => (hchar c).mp (hall c hc), hlast, ?_⟩
    intro hex
    rw [← containsSub_iff] at hex
    rw [hsub] at hex
    cases hex
  · rintro ⟨h1, h2, hall, hlast, hnsub⟩
    have hne : s.toList ≠ [] := by
      intro h
      rw [h] at h1
      simp at h1
    refine ⟨⟨⟨h1, h2⟩, ?_⟩, hne, fun c hc => (hchar c).mpr (hall c hc), hlast⟩
    rcases hcs : containsSub ['-', '-'] s.toList with _ | _
    · rfl
    · exact absurd ((containsSub_iff _ _).mp hcs) hnsub

theorem mem_keys_userDefinedStep {acc : List (String × String)} {param : RawSetElem}
    {name : String} :
    name ∈ keys (userDefinedStep acc param) ↔
      name ∈ keys acc
      ∨ ∃ v, param = RawSetElem.entry (some name) (some v) ∧ name ≠ "" ∧ v ≠ "" := by
  cases param with
  | notMap => simp [userDefinedStep]
  | entry n v =>
    cases n with
    | none => simp [userDefinedStep]
    | some nm =>
      rcases hnm : (nm == "") with _ | _
      · cases v with
        | none => simp [userDefinedStep, hnm]
        | some val =>
          rcases hval : (val == "") with _ | _
          · have hnm' : nm ≠ "" := by simpa using hnm
            have hval' : val ≠ "" := by simpa using hval
            simp only [userDefinedStep, hnm, hval, Bool.false_eq_true, if_false,
              mem_keys_goMapInsert, RawSetElem.entry.injEq, Option.some.injEq]
            constructor
            · rintro (h | rfl)
              · exact Or.inl h
              · exact Or.inr ⟨val, ⟨rfl, rfl⟩, hnm', hval'⟩
            · rintro (h | ⟨v', ⟨rfl, rfl⟩, -, -⟩)
              · exact Or.inl h
              · exact Or.inr rfl
          · have hval' : val = "" := by simpa using hval
            subst hval'
            simp [userDefinedStep, hnm]
      · have hnm' : nm = "" := by simpa using hnm
        subst hnm'
        simp only [userDefinedStep, beq_self_eq_true, if_true, RawSetElem.entry.injEq,
          Option.some.injEq, ne_eq]
        constructor
        · exact Or.inl
        · rintro (h | ⟨x, ⟨h1, -⟩, h3, -⟩)
          · exact h
          · exact absurd h1.symm h3

theorem mem_keys_createUserDefinedParameterMap {params : List RawSetElem} {name : String} :
    name ∈ keys (createUserDefinedParameterMap params) ↔
      ∃ v, RawSetElem.entry (some name) (some v) ∈ params ∧ name ≠ "" ∧ v ≠ "" := by
  suffices haux : ∀ (l : List RawSetElem) (acc : List (String × String)),
      name ∈ keys (l.foldl userDefinedStep acc) ↔
        name ∈ keys acc
        ∨ ∃ v, RawSetElem.entry (some name) (some v) ∈ l ∧ name ≠ "" ∧ v ≠ "" by
    simpa [createUserDefinedParameterMap, keys] using haux params []
  intro l
  induction l with
  | nil => intro acc; simp
  | cons hd tl ih =>
    intro acc
    rw [List.foldl_cons, ih, mem_keys_userDefinedStep]
    constructor
    · rintro ((h | ⟨v, rfl, hn, hv⟩) | ⟨v, hvtl, hn, hv⟩)
      · exact Or.inl h
      · exact Or.inr ⟨v, List.mem_cons_self .., hn, hv⟩
      · exact Or.inr ⟨v, List.mem_cons_of_mem _ hvtl, hn, hv⟩
    · rintro (h | ⟨v, hv, hn, hvne⟩)
      · exact Or.inl (Or.inl h)
      · rcases List.mem_cons.mp hv with heq | htl
        · exact Or.inl (Or.inr ⟨v, heq.symm, hn, hvne⟩)
        · exact Or.inr ⟨v, htl, hn, hvne⟩

/-- Claim C10: an entry of the declared parameter set that is not a map, or
whose name or value is missing, non-string or empty, contributes nothing to
the user-defined map; consequently a parameter declared only with an empty
value is not user-declared, and is hidden from the effective listing whenever
its current value equals the family default. -/
theorem userDefined_empty_value_omitted (params : List RawSetElem) (name : String) :
    (name ∈ keys (createUserDefinedParameterMap params) ↔
      ∃ v, RawSetElem.entry (some name) (some v) ∈ params ∧ name ≠ "" ∧ v ≠ "")
    ∧ ((∀ v, RawSetElem.entry (some name) (some v) ∈ params → v = "") →
      ∀ (defaults current : List Parameter) (p : Parameter),
        awsStringValue p.Name = name →
        awsStringValue p.Value = (goMapLookup (defaultValueByName defaults) name).getD "" →
        p ∉ listParameterGroupParameters defaults current
          (createUserDefinedParameterMap params)) := by
  refine ⟨mem_keys_createUserDefinedParameterMap, ?_⟩
  intro hempty defaults current p hname hvalue hmem
  have hnk : name ∉ keys (createUserDefinedParameterMap params) := by
    intro hk
    obtain ⟨v, hv, -, hvne⟩ := mem_keys_createUserDefinedParameterMap.mp hk
    exact hvne (hempty v hv)
  obtain ⟨-, hpred⟩ := List.mem_filter.mp hmem
  simp only [hname, hvalue, bne_self_eq_false, Bool.false_or] at hpred
  exact hnk (mem_keys_iff_lookup_isSome.mp hpred)

/-- Witness for C10: a parameter declared with an empty value whose current
value equals the family default is hidden from the effective listing. -/
theorem userDefined_empty_value_omitted_witness :
    (⟨some "maxmemory-policy", some "noeviction"⟩ : Parameter) ∉
      listParameterGroupParameters [⟨some "maxmemory-policy", some "noeviction"⟩]
        [⟨some "maxmemory-policy", some "noeviction"⟩]
        (createUserDefinedParameterMap
          [RawSetElem.entry (some "maxmemory-policy") (some "")]) :=
  (userDefined_empty_value_omitted
      [RawSetElem.entry (some "maxmemory-policy") (some "")] "maxmemory-policy").2
    (fun v hv => by simpa using List.mem_singleton.mp hv)
    [⟨some "maxmemory-policy", some "noeviction"⟩]
    [⟨some "maxmemory-policy", some "noeviction"⟩]
    ⟨some "maxmemory-policy", some "noeviction"⟩
    rfl (by decide)

end MemoryDB
